import Mathlib

/-
Verification of the TCP load balancer in load_balancer.py: the dispatch
policies (round robin, least connections, least response time) and the
socket pairing registry (SocketMapper), modelled as pure state-passing
functions over executable data.  Sockets are identified by natural
numbers, wall-clock instants by rationals, and Python dicts by
insertion-ordered association lists.
-/

namespace LB

/-- One step of the fold implementing the Python builtin min with a key
function: the accumulator is replaced only when a strictly smaller key
appears, so ties keep the earlier element. -/
def pyStep {α β : Type} [LinearOrder β] (key : α → β) (b y : α) : α :=
  if key y < key b then y else b

/-- The Python builtin min over a list with a key function: none on an
empty list, otherwise the first element attaining the minimal key. -/
def pyMin {α β : Type} [LinearOrder β] (key : α → β) : List α → Option α
  | [] => none
  | a :: xs => some (xs.foldl (pyStep key) a)

/-- The fold underlying pyMin splits its input around the returned
element: everything strictly before it has a strictly larger key, and
everything after it has a key at least as large.  This is exactly the
first-minimum semantics of the Python builtin min. -/
lemma pyStep_foldl_split {α β : Type} [LinearOrder β] (key : α → β) :
    ∀ (xs : List α) (a : α), ∃ l1 l2,
      a :: xs = l1 ++ (xs.foldl (pyStep key) a) :: l2 ∧
      (∀ t ∈ l1, key (xs.foldl (pyStep key) a) < key t) ∧
      (∀ t ∈ l2, key (xs.foldl (pyStep key) a) ≤ key t) := by
  intro xs
  induction xs with
  | nil =>
      intro a
      exact ⟨[], [], rfl, by simp, by simp⟩
  | cons y ys ih =>
      intro a
      simp only [List.foldl_cons]
      by_cases hlt : key y < key a
      · rw [show pyStep key a y = y from if_pos hlt]
        obtain ⟨l1, l2, heq, h1, h2⟩ := ih y
        have hry : key (ys.foldl (pyStep key) y) ≤ key y := by
          cases l1 with
          | nil =>
              simp only [List.nil_append] at heq
              injection heq with h3 h4
              rw [← h3]
          | cons b l1x =>
              simp only [List.cons_append] at heq
              injection heq with h3 h4
              refine le_of_lt (h1 y ?_)
              rw [h3]
              exact List.mem_cons_self b l1x
        refine ⟨a :: l1, l2, ?_, ?_, h2⟩
        · rw [List.cons_append, ← heq]
        · intro t ht
          rcases List.mem_cons.mp ht with h | h
          · rw [h]
            exact lt_of_le_of_lt hry hlt
          · exact h1 t h
      · rw [show pyStep key a y = a from if_neg hlt]
        obtain ⟨l1, l2, heq, h1, h2⟩ := ih a
        cases l1 with
        | nil =>
            simp only [List.nil_append] at heq
            injection heq with h3 h4
            refine ⟨[], y :: ys, ?_, by simp, ?_⟩
            · simp [← h3]
            · intro t ht
              rcases List.mem_cons.mp ht with h | h
              · rw [h, ← h3]
                exact le_of_not_lt hlt
              · refine h2 t ?_
                rw [← h4]
                exact h
        | cons b l1x =>
            simp only [List.cons_append] at heq
            injection heq with h3 h4
            have hra : key (ys.foldl (pyStep key) a) < key a := by
              refine h1 a ?_
              rw [h3]
              exact List.mem_cons_self b l1x
            refine ⟨a :: y :: l1x, l2, ?_, ?_, h2⟩
            · simp only [List.cons_append]
              conv_lhs => rw [h4]
            · intro t ht
              rcases List.mem_cons.mp ht with h | h
              · rw [h]
                exact hra
              · rcases List.mem_cons.mp h with h5 | h5
                · rw [h5]
                  exact lt_of_lt_of_le hra (le_of_not_lt hlt)
                · exact h1 t (List.mem_cons_of_mem b h5)

/-- pyMin splits its input around the returned element: strictly larger
keys before it, keys at least as large after it. -/
lemma pyMin_split {α β : Type} [LinearOrder β] (key : α → β) (l : List α) (r : α)
    (h : pyMin key l = some r) :
    ∃ l1 l2, l = l1 ++ r :: l2 ∧ (∀ t ∈ l1, key r < key t) ∧ (∀ t ∈ l2, key r ≤ key t) := by
  cases l with
  | nil => simp [pyMin] at h
  | cons a xs =>
      obtain ⟨l1, l2, heq, h1, h2⟩ := pyStep_foldl_split key xs a
      have hr : xs.foldl (pyStep key) a = r := by
        simpa [pyMin] using h
      rw [hr] at heq h1 h2
      exact ⟨l1, l2, heq, h1, h2⟩

/-- The element returned by pyMin is a member of the list. -/
lemma pyMin_mem {α β : Type} [LinearOrder β] (key : α → β) (l : List α) (r : α)
    (h : pyMin key l = some r) : r ∈ l := by
  obtain ⟨l1, l2, heq, _, _⟩ := pyMin_split key l r h
  rw [heq]
  exact List.mem_append_right l1 (List.mem_cons_self r l2)

/-- The element returned by pyMin has a minimal key. -/
lemma pyMin_le {α β : Type} [LinearOrder β] (key : α → β) (l : List α) (r : α)
    (h : pyMin key l = some r) : ∀ t ∈ l, key r ≤ key t := by
  obtain ⟨l1, l2, heq, h1, h2⟩ := pyMin_split key l r h
  intro t ht
  rw [heq] at ht
  rcases List.mem_append.mp ht with h3 | h3
  · exact le_of_lt (h1 t h3)
  · rcases List.mem_cons.mp h3 with h4 | h4
    · rw [h4]
    · exact h2 t h4

/-- pyMin succeeds on every nonempty list. -/
lemma pyMin_isSome {α β : Type} [LinearOrder β] (key : α → β) (l : List α) (hl : l ≠ []) :
    ∃ r, pyMin key l = some r := by
  cases l with
  | nil => exact absurd rfl hl
  | cons a xs => exact ⟨_, rfl⟩

/-
Python dicts are modelled as insertion-ordered association lists.
lookupA is dict access (none models a KeyError), setA is assignment to
an existing key (it rewrites every entry holding the key; dict keys are
unique, so on well-formed states exactly one entry changes).
-/

/-- Dict lookup on an association list: the value of the first entry
carrying the key. -/
def lookupA {γ : Type} (m : List (ℕ × γ)) (s : ℕ) : Option γ :=
  (m.find? fun e => decide (e.1 = s)).map Prod.snd

/-- Dict assignment to an existing key on an association list. -/
def setA {γ : Type} (m : List (ℕ × γ)) (s : ℕ) (v : γ) : List (ℕ × γ) :=
  m.map fun e => if e.1 = s then (e.1, v) else e

lemma lookupA_nil {γ : Type} (s : ℕ) : lookupA ([] : List (ℕ × γ)) s = none := rfl

lemma lookupA_cons {γ : Type} (e : ℕ × γ) (m : List (ℕ × γ)) (s : ℕ) :
    lookupA (e :: m) s = if e.1 = s then some e.2 else lookupA m s := by
  by_cases h : e.1 = s
  · simp [lookupA, List.find?_cons, h]
  · simp [lookupA, List.find?_cons, h]

lemma setA_cons {γ : Type} (e : ℕ × γ) (m : List (ℕ × γ)) (s : ℕ) (v : γ) :
    setA (e :: m) s v = (if e.1 = s then (e.1, v) else e) :: setA m s v := rfl

/-- setA does not change the key sequence of the association list. -/
lemma setA_keys {γ : Type} (m : List (ℕ × γ)) (s : ℕ) (v : γ) :
    (setA m s v).map Prod.fst = m.map Prod.fst := by
  induction m with
  | nil => rfl
  | cons e rest ih =>
      rw [setA_cons]
      by_cases h : e.1 = s
      · simp [h, ih]
      · simp [h, ih]

/-- Looking up the assigned key after setA yields the new value,
provided the key is present. -/
lemma lookupA_setA_self {γ : Type} (m : List (ℕ × γ)) (s : ℕ) (v : γ)
    (h : s ∈ m.map Prod.fst) : lookupA (setA m s v) s = some v := by
  induction m with
  | nil => simp at h
  | cons e rest ih =>
      rw [setA_cons]
      by_cases he : e.1 = s
      · rw [if_pos he, lookupA_cons]
        simp [he]
      · rw [if_neg he, lookupA_cons, if_neg he]
        refine ih ?_
        simp at h
        rcases h with h | h
        · exact absurd h.symm he
        · simpa using h

/-- Looking up a different key after setA is unchanged. -/
lemma lookupA_setA_ne {γ : Type} (m : List (ℕ × γ)) (s t : ℕ) (v : γ)
    (h : t ≠ s) : lookupA (setA m s v) t = lookupA m t := by
  induction m with
  | nil => rfl
  | cons e rest ih =>
      rw [setA_cons]
      by_cases he : e.1 = s
      · rw [if_pos he, lookupA_cons, lookupA_cons]
        have : e.1 ≠ t := by rw [he]; exact fun hc => h hc.symm
        simp only [this, if_false, ih]
      · rw [if_neg he, lookupA_cons, lookupA_cons, ih]

/-- A successful lookup comes from an entry of the list. -/
lemma lookupA_mem {γ : Type} (m : List (ℕ × γ)) (s : ℕ) (v : γ)
    (h : lookupA m s = some v) : (s, v) ∈ m := by
  induction m with
  | nil => simp [lookupA_nil] at h
  | cons e rest ih =>
      rw [lookupA_cons] at h
      by_cases he : e.1 = s
      · rw [if_pos he] at h
        injection h with h2
        have hev : e = (s, v) := by
          obtain ⟨e1, e2⟩ := e
          simp only at he h2
          rw [he, h2]
        rw [← hev]
        exact List.mem_cons_self e rest
      · rw [if_neg he] at h
        exact List.mem_cons_of_mem e (ih h)

/-- With unique keys, each entry of the list is returned by lookup. -/
lemma lookupA_of_mem {γ : Type} (m : List (ℕ × γ)) (s : ℕ) (v : γ)
    (hnd : (m.map Prod.fst).Nodup) (h : (s, v) ∈ m) : lookupA m s = some v := by
  induction m with
  | nil => simp at h
  | cons e rest ih =>
      rw [List.map_cons, List.nodup_cons] at hnd
      rw [lookupA_cons]
      rcases List.mem_cons.mp h with h2 | h2
      · rw [← h2]
        simp
      · have hes : e.1 ≠ s := by
          intro hc
          refine hnd.1 ?_
          rw [hc]
          exact List.mem_map.mpr ⟨(s, v), h2, rfl⟩
        rw [if_neg hes]
        exact ih hnd.2 h2

/-- With unique keys, two entries sharing a key coincide. -/
lemma mem_unique_of_nodup_keys {γ : Type} (m : List (ℕ × γ)) (s : ℕ) (v w : γ)
    (hnd : (m.map Prod.fst).Nodup) (hv : (s, v) ∈ m) (hw : (s, w) ∈ m) : v = w := by
  have h1 := lookupA_of_mem m s v hnd hv
  have h2 := lookupA_of_mem m s w hnd hw
  rw [h1] at h2
  injection h2

/-- Membership in setA: an entry with a key different from the assigned
one is carried over unchanged. -/
lemma mem_setA_of_ne {γ : Type} (m : List (ℕ × γ)) (s t : ℕ) (v w : γ)
    (h : (t, w) ∈ m) (hne : t ≠ s) : (t, w) ∈ setA m s v := by
  have : (if (t, w).1 = s then ((t, w).1, v) else (t, w)) ∈ setA m s v :=
    List.mem_map.mpr ⟨(t, w), h, rfl⟩
  simpa [hne] using this

/-- Membership in setA: the entry carrying the assigned key is mapped to
the new value. -/
lemma mem_setA_self {γ : Type} (m : List (ℕ × γ)) (s : ℕ) (v w : γ)
    (h : (s, w) ∈ m) : (s, v) ∈ setA m s v := by
  have : (if (s, w).1 = s then ((s, w).1, v) else (s, w)) ∈ setA m s v :=
    List.mem_map.mpr ⟨(s, w), h, rfl⟩
  simpa using this

/-- Every entry of setA is either an original entry with a key different
from the assigned one, or carries the assigned key and the new value. -/
lemma mem_setA_elim {γ : Type} (m : List (ℕ × γ)) (s t : ℕ) (v w : γ)
    (h : (t, w) ∈ setA m s v) :
    (t ≠ s ∧ (t, w) ∈ m) ∨ (t = s ∧ w = v) := by
  obtain ⟨e, he, heq⟩ := List.mem_map.mp h
  by_cases hes : e.1 = s
  · rw [if_pos hes] at heq
    right
    have h1 : e.1 = t := congrArg Prod.fst heq
    have h2 : v = w := congrArg Prod.snd heq
    exact ⟨by rw [← h1, hes], h2.symm⟩
  · rw [if_neg hes] at heq
    left
    have h1 : e.1 = t := congrArg Prod.fst heq
    exact ⟨by rw [← h1]; exact hes, heq ▸ he⟩

/-
Round robin policy (class RoundRobin).  State: the fixed server list and
the cursor index.  select_server returns the server at the cursor and
advances the cursor by one modulo the server count; a cursor outside the
list would raise IndexError in Python, modelled by none.  Servers are
identified by naturals standing for the (host, port) pairs.
-/

structure RoundRobin where
  servers : List ℕ
  index : ℕ
deriving DecidableEq

/-- RoundRobin.select_server from the source: return servers[index],
then set index to (index + 1) % len(servers). -/
def RoundRobin.selectServer (p : RoundRobin) : Option (ℕ × RoundRobin) :=
  match p.servers[p.index]? with
  | none => none
  | some server => some (server, ⟨p.servers, (p.index + 1) % p.servers.length⟩)

/-- Run k successive selections, collecting the returned servers. -/
def RoundRobin.runSelections : ℕ → RoundRobin → Option (List ℕ × RoundRobin)
  | 0, p => some ([], p)
  | Nat.succ k, p =>
    match p.selectServer with
    | none => none
    | some (s, p1) =>
      match RoundRobin.runSelections k p1 with
      | none => none
      | some (out, p2) => some (s :: out, p2)

lemma RoundRobin.selectServer_eq (l : List ℕ) (i : ℕ) (hi : i < l.length) :
    RoundRobin.selectServer ⟨l, i⟩ =
      some (l.getD i 0, ⟨l, (i + 1) % l.length⟩) := by
  have h1 : l[i]? = some l[i] := List.getElem?_eq_getElem hi
  have h2 : l.getD i 0 = l[i] := List.getD_eq_getElem l 0 hi
  simp [RoundRobin.selectServer, h1, h2]

/-- Closed form of k successive round robin selections from cursor i:
the j-th returned server sits at position (i + j) mod n, and the cursor
ends at (i + k) mod n. -/
lemma RoundRobin.runSelections_spec (l : List ℕ) (hl : 0 < l.length) :
    ∀ (k i : ℕ), i < l.length →
      RoundRobin.runSelections k ⟨l, i⟩ =
        some (((List.range k).map fun j => l.getD ((i + j) % l.length) 0),
          ⟨l, (i + k) % l.length⟩) := by
  intro k
  induction k with
  | zero =>
      intro i hi
      simp [RoundRobin.runSelections, Nat.mod_eq_of_lt hi]
  | succ k ih =>
      intro i hi
      have hsel := RoundRobin.selectServer_eq l i hi
      have hnext : (i + 1) % l.length < l.length := Nat.mod_lt _ hl
      have hrec := ih ((i + 1) % l.length) hnext
      have hlist : (List.range (k + 1)).map (fun j => l.getD ((i + j) % l.length) 0) =
          l.getD i 0 ::
            (List.range k).map fun j => l.getD (((i + 1) % l.length + j) % l.length) 0 := by
        rw [List.range_succ_eq_map, List.map_cons, List.map_map]
        have hz : (i + 0) % l.length = i := by
          rw [Nat.add_zero]
          exact Nat.mod_eq_of_lt hi
        rw [hz]
        refine congrArg (List.cons (l.getD i 0)) ?_
        refine List.map_congr_left ?_
        intro j hj
        have : ((i + 1) % l.length + j) % l.length = (i + (j + 1)) % l.length := by
          rw [Nat.mod_add_mod]
          refine congrArg (fun t => t % l.length) ?_
          omega
        simp [Function.comp, this]
      have hidx : ((i + 1) % l.length + k) % l.length = (i + (k + 1)) % l.length := by
        rw [Nat.mod_add_mod]
        refine congrArg (fun t => t % l.length) ?_
        omega
      simp only [RoundRobin.runSelections, hsel, hrec, hlist, hidx]

/-- The closed form of a full cycle of selections is the server list
rotated at the cursor: the part from the cursor on, then the part before
the cursor. -/
lemma range_map_getD_eq_drop_append_take (l : List ℕ) (i : ℕ) (hi : i < l.length) :
    ((List.range l.length).map fun j => l.getD ((i + j) % l.length) 0) =
      l.drop i ++ l.take i := by
  have hl : 0 < l.length := Nat.lt_of_le_of_lt (Nat.zero_le i) hi
  refine List.ext_getElem ?_ ?_
  · simp
    omega
  · intro j hj1 hj2
    rw [List.getElem_map, List.getElem_range]
    have hjlen : j < l.length := by simpa using hj1
    by_cases hcase : j < l.length - i
    · have hij : i + j < l.length := by omega
      have hmod : (i + j) % l.length = i + j := Nat.mod_eq_of_lt hij
      rw [hmod, List.getD_eq_getElem l 0 hij]
      have hdrop : j < (l.drop i).length := by simp; omega
      rw [List.getElem_append_left hdrop, List.getElem_drop]
    · have hge : l.length ≤ i + j := by omega
      have hsub : i + j - l.length < l.length := by omega
      have hmod : (i + j) % l.length = i + j - l.length := by
        rw [Nat.mod_eq_sub_mod hge]
        exact Nat.mod_eq_of_lt hsub
      rw [hmod]
      have hdroplen : (l.drop i).length = l.length - i := by simp
      have hjd : (l.drop i).length ≤ j := by omega
      rw [List.getElem_append_right hjd, List.getElem_take]
      have hidx : j - (l.drop i).length < l.length := by
        simp
        omega
      rw [← List.getD_eq_getElem l 0 hidx]
      refine congrArg (fun t => l.getD t 0) ?_
      simp
      omega

/-
Least connections policy (class LeastConnections).  State: the server
list and the dict mapping each server to its open connection counter.
select_server picks the first server attaining the minimal counter and
increments that counter within the same call; update(server) decrements
the counter of that server by one with no clamping.  A dict access with
a missing key (a Python KeyError) is modelled by none.
-/

structure LeastConnections where
  servers : List ℕ
  connections : List (ℕ × ℤ)
deriving DecidableEq

/-- The constructor of LeastConnections: every server starts at zero
open connections. -/
def LeastConnections.init (servers : List ℕ) : LeastConnections :=
  ⟨servers, servers.map fun s => (s, 0)⟩

/-- The counter the selection key function reads for a server.  Every
reachable state holds a key for each server, so the default is inert. -/
def LeastConnections.conn (p : LeastConnections) (s : ℕ) : ℤ :=
  (lookupA p.connections s).getD 0

/-- LeastConnections.select_server: the first server of the list with
the minimal counter; its counter is incremented within the call. -/
def LeastConnections.selectServer (p : LeastConnections) : Option (ℕ × LeastConnections) :=
  match pyMin p.conn p.servers with
  | none => none
  | some s => some (s, ⟨p.servers, setA p.connections s (p.conn s + 1)⟩)

/-- LeastConnections.update: decrement the counter of the given server
by one, storing the result unconditionally (no clamping); a missing key
raises KeyError, modelled by none. -/
def LeastConnections.update (p : LeastConnections) (server : ℕ) : Option LeastConnections :=
  match lookupA p.connections server with
  | none => none
  | some v => some ⟨p.servers, setA p.connections server (v - 1)⟩

/-- Events observed by the least connections policy: a selection, or a
close notification for a server. -/
inductive LCOp where
  | sel : LCOp
  | upd : ℕ → LCOp
deriving DecidableEq

/-- Run a sequence of policy calls, collecting the selected servers. -/
def runLC : List LCOp → LeastConnections → Option (LeastConnections × List ℕ)
  | [], p => some (p, [])
  | LCOp.sel :: rest, p =>
    p.selectServer.bind fun sp =>
      (runLC rest sp.2).map fun r => (r.1, sp.1 :: r.2)
  | LCOp.upd server :: rest, p =>
    (p.update server).bind fun p1 => runLC rest p1

/-- The number of close notifications for a server in a call sequence. -/
def countUpd (ops : List LCOp) (s : ℕ) : ℕ :=
  (ops.filter fun op => match op with
    | LCOp.sel => false
    | LCOp.upd t => decide (t = s)).length

lemma countUpd_nil (s : ℕ) : countUpd [] s = 0 := rfl

lemma countUpd_sel (rest : List LCOp) (s : ℕ) :
    countUpd (LCOp.sel :: rest) s = countUpd rest s := by
  simp [countUpd]

lemma countUpd_upd (t : ℕ) (rest : List LCOp) (s : ℕ) :
    countUpd (LCOp.upd t :: rest) s = countUpd rest s + if t = s then 1 else 0 := by
  by_cases h : t = s <;> simp [countUpd, h]

lemma LeastConnections.init_conn_keys (servers : List ℕ) :
    (LeastConnections.init servers).connections.map Prod.fst = servers := by
  show (servers.map fun s => (s, (0 : ℤ))).map Prod.fst = servers
  induction servers with
  | nil => rfl
  | cons a rest ih => simp only [List.map_cons, ih]

lemma LeastConnections.conn_init (servers : List ℕ) (s : ℕ) :
    (LeastConnections.init servers).conn s = 0 := by
  show (lookupA (servers.map fun t => (t, (0 : ℤ))) s).getD 0 = 0
  induction servers with
  | nil => rfl
  | cons a rest ih =>
      rw [List.map_cons, lookupA_cons]
      by_cases h : a = s
      · simp [h]
      · simpa [h] using ih

/-- What one selection call does to the counters. -/
lemma LeastConnections.selectServer_conn (p : LeastConnections) (s : ℕ)
    (p1 : LeastConnections)
    (hwf : ∀ t ∈ p.servers, t ∈ p.connections.map Prod.fst)
    (h : p.selectServer = some (s, p1)) :
    s ∈ p.servers ∧ p1.servers = p.servers ∧
    p1.conn s = p.conn s + 1 ∧ (∀ t, t ≠ s → p1.conn t = p.conn t) ∧
    p1.connections.map Prod.fst = p.connections.map Prod.fst := by
  unfold LeastConnections.selectServer at h
  cases hmin : pyMin p.conn p.servers with
  | none => rw [hmin] at h; exact absurd h (by simp)
  | some s0 =>
      rw [hmin] at h
      have h1 : s0 = s ∧ (⟨p.servers, setA p.connections s0 (p.conn s0 + 1)⟩ :
          LeastConnections) = p1 := by
        have := Option.some.inj h
        exact ⟨congrArg Prod.fst this, congrArg Prod.snd this⟩
      obtain ⟨hs0, hp1⟩ := h1
      subst hs0
      subst hp1
      have hmem : s0 ∈ p.servers := pyMin_mem p.conn p.servers s0 hmin
      refine ⟨hmem, rfl, ?_, ?_, setA_keys _ _ _⟩
      · show (lookupA (setA p.connections s0 (p.conn s0 + 1)) s0).getD 0 = p.conn s0 + 1
        rw [lookupA_setA_self p.connections s0 _ (hwf s0 hmem)]
        rfl
      · intro t ht
        show (lookupA (setA p.connections s0 (p.conn s0 + 1)) t).getD 0 = p.conn t
        rw [lookupA_setA_ne p.connections s0 t _ ht]
        rfl

/-- What one close notification does to the counters. -/
lemma LeastConnections.update_conn (p : LeastConnections) (server : ℕ)
    (p1 : LeastConnections) (h : p.update server = some p1) :
    p1.servers = p.servers ∧ p1.conn server = p.conn server - 1 ∧
    (∀ t, t ≠ server → p1.conn t = p.conn t) ∧
    p1.connections.map Prod.fst = p.connections.map Prod.fst := by
  unfold LeastConnections.update at h
  cases hl : lookupA p.connections server with
  | none => rw [hl] at h; exact absurd h (by simp)
  | some v =>
      rw [hl] at h
      have hp1 := Option.some.inj h
      subst hp1
      have hkey : server ∈ p.connections.map Prod.fst :=
        List.mem_map.mpr ⟨(server, v), lookupA_mem _ _ _ hl, rfl⟩
      have hv : p.conn server = v := by
        show (lookupA p.connections server).getD 0 = v
        rw [hl]
        rfl
      refine ⟨rfl, ?_, ?_, setA_keys _ _ _⟩
      · show (lookupA (setA p.connections server (v - 1)) server).getD 0 = p.conn server - 1
        rw [lookupA_setA_self p.connections server _ hkey, hv]
        rfl
      · intro t ht
        show (lookupA (setA p.connections server (v - 1)) t).getD 0 = p.conn t
        rw [lookupA_setA_ne p.connections server t _ ht]
        rfl

/-- Bookkeeping identity of the least connections policy over any call
sequence: each counter moves by selections minus notifications, and the
server list and key set are stable. -/
lemma runLC_conn : ∀ (ops : List LCOp) (p p2 : LeastConnections) (chosen : List ℕ),
    (∀ t ∈ p.servers, t ∈ p.connections.map Prod.fst) →
    runLC ops p = some (p2, chosen) →
    ∀ s, p2.conn s = p.conn s + chosen.count s - countUpd ops s := by
  intro ops
  induction ops with
  | nil =>
      intro p p2 chosen hwf h s
      have h1 := Option.some.inj h
      have hp : p = p2 := congrArg Prod.fst h1
      have hc : ([] : List ℕ) = chosen := congrArg Prod.snd h1
      rw [← hp, ← hc]
      simp [countUpd_nil]
  | cons op rest ih =>
      intro p p2 chosen hwf h s
      cases op with
      | sel =>
          rw [runLC] at h
          cases hsel : p.selectServer with
          | none => rw [hsel] at h; exact absurd h (by simp)
          | some sp =>
              obtain ⟨s0, p1⟩ := sp
              rw [hsel] at h
              simp only [Option.some_bind] at h
              cases hrun : runLC rest p1 with
              | none => rw [hrun] at h; exact absurd h (by simp)
              | some r =>
                  obtain ⟨p2x, ch⟩ := r
                  rw [hrun] at h
                  simp only [Option.map_some'] at h
                  have h1 := Option.some.inj h
                  have hp : p2x = p2 := congrArg Prod.fst h1
                  have hc : s0 :: ch = chosen := congrArg Prod.snd h1
                  obtain ⟨hmem, hsrv, hbump, hother, hkeys⟩ :=
                    LeastConnections.selectServer_conn p s0 p1 hwf hsel
                  have hwf1 : ∀ t ∈ p1.servers, t ∈ p1.connections.map Prod.fst := by
                    intro t ht
                    rw [hkeys]
                    exact hwf t (hsrv ▸ ht)
                  have hrec := ih p1 p2x ch hwf1 hrun s
                  rw [← hc, ← hp]
                  rw [List.count_cons, countUpd_sel, hrec]
                  by_cases hss : s = s0
                  · rw [hss, hbump]
                    simp
                    ring
                  · rw [hother s hss]
                    have : ¬ (s0 = s) := fun hcon => hss hcon.symm
                    simp [this]
      | upd t =>
          rw [runLC] at h
          cases hupd : p.update t with
          | none => rw [hupd] at h; exact absurd h (by simp)
          | some p1 =>
              rw [hupd] at h
              simp only [Option.some_bind] at h
              obtain ⟨hsrv, hdrop, hother, hkeys⟩ :=
                LeastConnections.update_conn p t p1 hupd
              have hwf1 : ∀ u ∈ p1.servers, u ∈ p1.connections.map Prod.fst := by
                intro u hu
                rw [hkeys]
                exact hwf u (hsrv ▸ hu)
              have hrec := ih p1 p2 chosen hwf1 h s
              rw [hrec, countUpd_upd]
              by_cases hts : t = s
              · rw [← hts, hdrop]
                simp
                ring
              · rw [hother s fun hcon => hts hcon.symm]
                simp [hts]

/-
Least response time policy (class LeastResponseTime).  Per-server dict
value [timestamps, avg_response_time, num_requests]: the window of
timestamps, the running average, and the completed request count.  Wall
clock instants are rationals passed in explicitly; the float arithmetic
of the source is modelled exactly over the rationals.
-/

structure STimes where
  timestamps : List ℚ
  avg : ℚ
  numRequests : ℕ
deriving DecidableEq

structure LeastResponseTime where
  table : List (ℕ × STimes)
deriving DecidableEq

/-- The constructor: every server starts with window [0], average 0 and
zero completed requests. -/
def LeastResponseTime.init (servers : List ℕ) : LeastResponseTime :=
  ⟨servers.map fun s => (s, ⟨[0], 0, 0⟩)⟩

/-- The tie-break of select_server: starting from the first entry with
the minimal average, collect every entry tied at that average and, when
more than one entry is tied, re-pick the first tied entry with the
shortest timestamp window. -/
def lrtChoose (table : List (ℕ × STimes)) (first : ℕ × STimes) : ℕ × STimes :=
  if 1 < (table.filter fun e => decide (e.2.avg = first.2.avg)).length then
    (pyMin (fun e => e.2.timestamps.length)
      (table.filter fun e => decide (e.2.avg = first.2.avg))).getD first
  else first

/-- LeastResponseTime.select_server at a given instant: pick the entry
with the minimal running average, break ties by the shortest timestamp
window, then overwrite the last slot of the window of the picked server
with the current time and append a fresh zero slot.  An empty window
would make the Python index -1 raise IndexError, modelled by none. -/
def LeastResponseTime.selectServer (p : LeastResponseTime) (now : ℚ) :
    Option (ℕ × LeastResponseTime) :=
  match pyMin (fun e => e.2.avg) p.table with
  | none => none
  | some first =>
    match (lrtChoose p.table first).2.timestamps with
    | [] => none
    | _ :: _ =>
      some ((lrtChoose p.table first).1,
        ⟨setA p.table (lrtChoose p.table first).1
          ⟨(lrtChoose p.table first).2.timestamps.dropLast ++ [now, 0],
            (lrtChoose p.table first).2.avg,
            (lrtChoose p.table first).2.numRequests⟩⟩)

/-- LeastResponseTime.update at a given instant: read the head of the
window as the start time, fold the elapsed time into the running average
by the incremental formula, increment the request count, and shift the
window by dropping its head and appending a zero.  A missing key or an
empty window raises in Python, modelled by none. -/
def LeastResponseTime.update (p : LeastResponseTime) (server : ℕ) (now : ℚ) :
    Option LeastResponseTime :=
  match lookupA p.table server with
  | none => none
  | some info =>
    match info.timestamps with
    | [] => none
    | start :: rest =>
      some ⟨setA p.table server
        ⟨rest ++ [0],
          (info.avg * (info.numRequests : ℚ) + (now - start)) / ((info.numRequests : ℚ) + 1),
          info.numRequests + 1⟩⟩

/-- Events observed by the least response time policy, each carrying the
wall clock instant at which the call happens. -/
inductive LRTOp where
  | sel : ℚ → LRTOp
  | upd : ℕ → ℚ → LRTOp
deriving DecidableEq

/-- Run a sequence of policy calls, collecting the selected servers. -/
def runLRT : List LRTOp → LeastResponseTime → Option (LeastResponseTime × List ℕ)
  | [], p => some (p, [])
  | LRTOp.sel now :: rest, p =>
    (p.selectServer now).bind fun sp =>
      (runLRT rest sp.2).map fun r => (r.1, sp.1 :: r.2)
  | LRTOp.upd server now :: rest, p =>
    (p.update server now).bind fun p1 => runLRT rest p1

/-- The entry picked by the tie-break is in the table and is tied with
the given entry on the average. -/
lemma lrtChoose_mem_avg (table : List (ℕ × STimes)) (first : ℕ × STimes)
    (hmem : first ∈ table) :
    lrtChoose table first ∈ table ∧ (lrtChoose table first).2.avg = first.2.avg := by
  have hftemp : first ∈ table.filter fun e => decide (e.2.avg = first.2.avg) :=
    List.mem_filter.mpr ⟨hmem, by simp⟩
  unfold lrtChoose
  by_cases hlen : 1 < (table.filter fun e => decide (e.2.avg = first.2.avg)).length
  · rw [if_pos hlen]
    obtain ⟨c, hc⟩ := pyMin_isSome (fun e => e.2.timestamps.length) _
      (List.ne_nil_of_mem hftemp)
    rw [hc]
    simp only [Option.getD_some]
    have hcmem := pyMin_mem _ _ _ hc
    have h2 := List.mem_filter.mp hcmem
    exact ⟨h2.1, of_decide_eq_true h2.2⟩
  · rw [if_neg hlen]
    exact ⟨hmem, rfl⟩

/-- Among the entries tied at the average of the given entry, the picked
entry has a window of minimal length. -/
lemma lrtChoose_tie_min (table : List (ℕ × STimes)) (first : ℕ × STimes)
    (hmem : first ∈ table) :
    ∀ e ∈ table, e.2.avg = first.2.avg →
      (lrtChoose table first).2.timestamps.length ≤ e.2.timestamps.length := by
  intro e he heavg
  have hftemp : first ∈ table.filter fun x => decide (x.2.avg = first.2.avg) :=
    List.mem_filter.mpr ⟨hmem, by simp⟩
  have hetemp : e ∈ table.filter fun x => decide (x.2.avg = first.2.avg) :=
    List.mem_filter.mpr ⟨he, by simp [heavg]⟩
  unfold lrtChoose
  by_cases hlen : 1 < (table.filter fun x => decide (x.2.avg = first.2.avg)).length
  · rw [if_pos hlen]
    obtain ⟨c, hc⟩ := pyMin_isSome (fun x => x.2.timestamps.length) _
      (List.ne_nil_of_mem hftemp)
    rw [hc]
    simp only [Option.getD_some]
    exact pyMin_le _ _ _ hc e hetemp
  · rw [if_neg hlen]
    have hef : e = first := by
      cases htemp : table.filter fun x => decide (x.2.avg = first.2.avg) with
      | nil => rw [htemp] at hftemp; simp at hftemp
      | cons x xs =>
          rw [htemp] at hlen hetemp hftemp
          have hxs : xs = [] := by
            cases xs with
            | nil => rfl
            | cons y ys => exact absurd (by simp) hlen
          rw [hxs] at hetemp hftemp
          have h1 : e = x := by simpa using hetemp
          have h2 : first = x := by simpa using hftemp
          rw [h1, h2]
    rw [hef]

/-- What one selection call returns and does to the table: the picked
server carries a nonempty window, its average is minimal over the table,
its window is shortest among the entries tied at that average, and its
window is rewritten to (dropLast ++ [now, 0]). -/
lemma LeastResponseTime.selectServer_spec (p : LeastResponseTime) (now : ℚ) (s : ℕ)
    (p1 : LeastResponseTime) (h : p.selectServer now = some (s, p1)) :
    ∃ info : STimes, (s, info) ∈ p.table ∧ info.timestamps ≠ [] ∧
      (∀ e ∈ p.table, info.avg ≤ e.2.avg) ∧
      (∀ e ∈ p.table, e.2.avg = info.avg → info.timestamps.length ≤ e.2.timestamps.length) ∧
      p1.table = setA p.table s
        ⟨info.timestamps.dropLast ++ [now, 0], info.avg, info.numRequests⟩ := by
  unfold LeastResponseTime.selectServer at h
  split at h
  · exact absurd h (by simp)
  · rename_i first hmin
    split at h
    · exact absurd h (by simp)
    · rename_i a w hts
      have hinj := Option.some.inj h
      have hs : (lrtChoose p.table first).1 = s := congrArg Prod.fst hinj
      have hp1 : (⟨setA p.table (lrtChoose p.table first).1
          ⟨(lrtChoose p.table first).2.timestamps.dropLast ++ [now, 0],
            (lrtChoose p.table first).2.avg,
            (lrtChoose p.table first).2.numRequests⟩⟩ : LeastResponseTime) = p1 :=
        congrArg Prod.snd hinj
      have hfmem : first ∈ p.table := pyMin_mem _ _ _ hmin
      have hfmin := pyMin_le _ _ _ hmin
      obtain ⟨hcmem, hcavg⟩ := lrtChoose_mem_avg p.table first hfmem
      refine ⟨(lrtChoose p.table first).2, ?_, ?_, ?_, ?_, ?_⟩
      · rw [← hs]
        simpa using hcmem
      · rw [hts]
        exact List.cons_ne_nil a w
      · intro e he
        rw [hcavg]
        exact hfmin e he
      · intro e he heavg
        refine lrtChoose_tie_min p.table first hfmem e he ?_
        rw [heavg, hcavg]
      · rw [← hp1, ← hs]

/-- What one update call does to the table: the window head is read as
the start time, the average is folded by the incremental formula, the
count is incremented, and the window is shifted by one with a zero
appended. -/
lemma LeastResponseTime.update_spec (p : LeastResponseTime) (server : ℕ) (now : ℚ)
    (p1 : LeastResponseTime) (h : p.update server now = some p1) :
    ∃ (info : STimes) (start : ℚ) (w : List ℚ),
      lookupA p.table server = some info ∧ info.timestamps = start :: w ∧
      p1.table = setA p.table server
        ⟨w ++ [0],
          (info.avg * (info.numRequests : ℚ) + (now - start)) / ((info.numRequests : ℚ) + 1),
          info.numRequests + 1⟩ := by
  unfold LeastResponseTime.update at h
  split at h
  · exact absurd h (by simp)
  · rename_i info hlook
    split at h
    · exact absurd h (by simp)
    · rename_i start rest hts
      have hp1 := congrArg LeastResponseTime.table (Option.some.inj h)
      exact ⟨info, start, rest, hlook, hts, hp1.symm⟩

/-- Well-formedness of a least response time state: unique dict keys and
a nonempty window for every server.  Holds at construction and is kept
by both calls. -/
def LRTWF (p : LeastResponseTime) : Prop :=
  (p.table.map Prod.fst).Nodup ∧ ∀ e ∈ p.table, e.2.timestamps ≠ []

lemma LRTWF_init (servers : List ℕ) (hnd : servers.Nodup) :
    LRTWF (LeastResponseTime.init servers) := by
  constructor
  · have hgen : ∀ l : List ℕ, (l.map fun s => (s, (⟨[0], 0, 0⟩ : STimes))).map Prod.fst = l := by
      intro l
      induction l with
      | nil => rfl
      | cons a rest ih => simp only [List.map_cons, ih]
    have : (LeastResponseTime.init servers).table.map Prod.fst = servers := hgen servers
    rw [this]
    exact hnd
  · intro e he
    obtain ⟨s, _, heq⟩ := List.mem_map.mp he
    rw [← heq]
    simp

/-- setA with a nonempty window value keeps LRTWF. -/
lemma LRTWF_setA (p : LeastResponseTime) (s : ℕ) (v : STimes)
    (hwf : LRTWF p) (hv : v.timestamps ≠ []) :
    LRTWF ⟨setA p.table s v⟩ := by
  constructor
  · show ((setA p.table s v).map Prod.fst).Nodup
    rw [setA_keys]
    exact hwf.1
  · intro e he
    obtain ⟨t, w⟩ := e
    rcases mem_setA_elim p.table s t v w he with ⟨_, hmem⟩ | ⟨_, hw⟩
    · exact hwf.2 (t, w) hmem
    · rw [hw]
      exact hv

/-- Window length bookkeeping of the least response time policy over any
call sequence: every selection of a server lengthens its window by one
and no update ever shortens it, so a window length grows by exactly the
number of selections of that server. -/
lemma runLRT_window : ∀ (ops : List LRTOp) (p p2 : LeastResponseTime) (chosen : List ℕ),
    LRTWF p → runLRT ops p = some (p2, chosen) →
    LRTWF p2 ∧ p2.table.map Prod.fst = p.table.map Prod.fst ∧
    ∀ s info, (s, info) ∈ p.table → ∃ info2, (s, info2) ∈ p2.table ∧
      info2.timestamps.length = info.timestamps.length + chosen.count s := by
  intro ops
  induction ops with
  | nil =>
      intro p p2 chosen hwf h
      have h1 := Option.some.inj h
      have hp : p = p2 := congrArg Prod.fst h1
      have hc : ([] : List ℕ) = chosen := congrArg Prod.snd h1
      rw [← hp, ← hc]
      exact ⟨hwf, rfl, fun s info hmem => ⟨info, hmem, by simp⟩⟩
  | cons op rest ih =>
      intro p p2 chosen hwf h
      cases op with
      | sel now =>
          rw [runLRT] at h
          cases hsel : p.selectServer now with
          | none => rw [hsel] at h; exact absurd h (by simp)
          | some sp =>
              obtain ⟨s0, pmid⟩ := sp
              rw [hsel] at h
              simp only [Option.some_bind] at h
              cases hrun : runLRT rest pmid with
              | none => rw [hrun] at h; exact absurd h (by simp)
              | some r =>
                  obtain ⟨p2x, ch⟩ := r
                  rw [hrun] at h
                  simp only [Option.map_some'] at h
                  have h1 := Option.some.inj h
                  have hp : p2x = p2 := congrArg Prod.fst h1
                  have hc : s0 :: ch = chosen := congrArg Prod.snd h1
                  obtain ⟨info0, hmem0, hne0, _, _, htab⟩ :=
                    LeastResponseTime.selectServer_spec p now s0 pmid hsel
                  have hwfmid : LRTWF pmid := by
                    have := LRTWF_setA p s0
                      ⟨info0.timestamps.dropLast ++ [now, 0], info0.avg, info0.numRequests⟩
                      hwf (by simp)
                    cases pmid
                    simp only at htab
                    rw [htab]
                    exact this
                  obtain ⟨hwf2, hkeys2, hlen2⟩ := ih pmid p2x ch hwfmid hrun
                  refine ⟨hp ▸ hwf2, ?_, ?_⟩
                  · rw [← hp, hkeys2, htab, setA_keys]
                  · intro s info hmem
                    by_cases hss : s = s0
                    · subst hss
                      have hinfo : info = info0 :=
                        mem_unique_of_nodup_keys p.table s info info0 hwf.1 hmem hmem0
                      have hmemmid : (s,
                          (⟨info0.timestamps.dropLast ++ [now, 0], info0.avg,
                            info0.numRequests⟩ : STimes)) ∈ pmid.table := by
                        rw [htab]
                        exact mem_setA_self p.table s _ info0 hmem0
                      obtain ⟨info2, hmem2, hlen⟩ := hlen2 s _ hmemmid
                      refine ⟨info2, hp ▸ hmem2, ?_⟩
                      rw [hlen, ← hc]
                      simp only [List.count_cons_self]
                      have hlendrop : (info0.timestamps.dropLast ++ [now, 0]).length =
                          info0.timestamps.length + 1 := by
                        rw [List.length_append, List.length_dropLast]
                        have : 0 < info0.timestamps.length := List.length_pos.mpr hne0
                        simp
                        omega
                      rw [hlendrop, hinfo]
                      omega
                    · have hmemmid : (s, info) ∈ pmid.table := by
                        rw [htab]
                        exact mem_setA_of_ne p.table s0 s _ info hmem hss
                      obtain ⟨info2, hmem2, hlen⟩ := hlen2 s info hmemmid
                      refine ⟨info2, hp ▸ hmem2, ?_⟩
                      rw [hlen, ← hc]
                      have : s0 ≠ s := fun hcon => hss hcon.symm
                      simp [List.count_cons, this]
      | upd server now =>
          rw [runLRT] at h
          cases hupd : p.update server now with
          | none => rw [hupd] at h; exact absurd h (by simp)
          | some pmid =>
              rw [hupd] at h
              simp only [Option.some_bind] at h
              obtain ⟨info0, start, w, hlook, hts, htab⟩ :=
                LeastResponseTime.update_spec p server now pmid hupd
              have hmem0 : (server, info0) ∈ p.table := lookupA_mem _ _ _ hlook
              have hwfmid : LRTWF pmid := by
                have := LRTWF_setA p server
                  ⟨w ++ [0],
                    (info0.avg * (info0.numRequests : ℚ) + (now - start)) /
                      ((info0.numRequests : ℚ) + 1),
                    info0.numRequests + 1⟩ hwf (by simp)
                cases pmid
                simp only at htab
                rw [htab]
                exact this
              obtain ⟨hwf2, hkeys2, hlen2⟩ := ih pmid p2 chosen hwfmid h
              refine ⟨hwf2, ?_, ?_⟩
              · rw [hkeys2, htab, setA_keys]
              · intro s info hmem
                by_cases hss : s = server
                · subst hss
                  have hinfo : info = info0 :=
                    mem_unique_of_nodup_keys p.table s info info0 hwf.1 hmem hmem0
                  have hmemmid : (s,
                      (⟨w ++ [0],
                        (info0.avg * (info0.numRequests : ℚ) + (now - start)) /
                          ((info0.numRequests : ℚ) + 1),
                        info0.numRequests + 1⟩ : STimes)) ∈ pmid.table := by
                    rw [htab]
                    exact mem_setA_self p.table s _ info0 hmem0
                  obtain ⟨info2, hmem2, hlen⟩ := hlen2 s _ hmemmid
                  refine ⟨info2, hmem2, ?_⟩
                  rw [hlen, hinfo, hts]
                  simp
                · have hmemmid : (s, info) ∈ pmid.table := by
                    rw [htab]
                    exact mem_setA_of_ne p.table server s _ info hmem hss
                  obtain ⟨info2, hmem2, hlen⟩ := hlen2 s info hmemmid
                  exact ⟨info2, hmem2, hlen⟩

/-
The socket pairing registry (class SocketMapper) and the relay read
handler.  Sockets are naturals.  A state carries the pairing dict
(client socket to upstream socket, in insertion order), the selector
subscriptions, the log of close() calls in call order, and the log of
policy update notifications.  The SocketMapper constructor stores the
policy object, but no method of the source ever invokes policy.update,
so nothing in the embedding below ever appends to the notification log.
-/

structure MapperState where
  map : List (ℕ × ℕ)
  registered : List ℕ
  closed : List ℕ
  updates : List ℕ
deriving DecidableEq

/-- SocketMapper.get_sock: scan the pairing dict in order; for each pair
return the client when the upstream matches, else the upstream when the
client matches; none when no pair holds the socket. -/
def getSock : List (ℕ × ℕ) → ℕ → Option ℕ
  | [], _ => none
  | (client, upstream) :: rest, sock =>
    if upstream = sock then some client
    else if client = sock then some upstream
    else getSock rest sock

/-- The selector unregister call: remove the socket from the
subscriptions, raising KeyError (none) when it is absent. -/
def unregList (l : List ℕ) (s : ℕ) : Option (List ℕ) :=
  if s ∈ l then some (l.erase s) else none

/-- SocketMapper.add: subscribe the client socket, then connect to the
upstream server, subscribe the upstream socket and record the pair.  The
Bool models whether the connect call succeeds; on failure the raised
exception leaves the state with the client already subscribed and no
pair recorded. -/
def MapperState.add (st : MapperState) (clientSock upstreamSock : ℕ)
    (connectOk : Bool) : Except MapperState MapperState :=
  if connectOk then
    Except.ok ⟨st.map ++ [(clientSock, upstreamSock)],
      (st.registered ++ [clientSock]) ++ [upstreamSock], st.closed, st.updates⟩
  else
    Except.error ⟨st.map, st.registered ++ [clientSock], st.closed, st.updates⟩

/-- SocketMapper.delete: resolve the paired socket, unregister and close
the argument socket, unregister and close the paired socket, then pop
the pairing entry keyed by whichever of the two is the dict key.  A
failed resolve (None) or unregister raises, modelled by none.  No branch
notifies the policy. -/
def MapperState.delete (st : MapperState) (sock : ℕ) : Option MapperState :=
  match getSock st.map sock with
  | none => none
  | some paired =>
    match unregList st.registered sock with
    | none => none
    | some reg1 =>
      match unregList reg1 paired with
      | none => none
      | some reg2 =>
        some ⟨(if st.map.any fun e => e.1 == sock then
            st.map.filter fun e => e.1 != sock
          else
            st.map.filter fun e => e.1 != paired),
          reg2, (st.closed ++ [sock]) ++ [paired], st.updates⟩

/-- The relay read handler (function read): a zero length read tears the
pair down via SocketMapper.delete; a nonzero read forwards the bytes to
the resolved peer (byte contents are not modelled; a missing peer would
raise).  No branch notifies the policy. -/
def readHandler (st : MapperState) (conn : ℕ) (dataLen : ℕ) : Option MapperState :=
  if dataLen = 0 then st.delete conn
  else
    match getSock st.map conn with
    | none => none
    | some _ => some st

lemma getSock_cons (c u : ℕ) (rest : List (ℕ × ℕ)) (sock : ℕ) :
    getSock ((c, u) :: rest) sock =
      if u = sock then some c
      else if c = sock then some u
      else getSock rest sock := rfl

/-- A socket held by no pair resolves to none. -/
lemma getSock_none_of_fresh (m : List (ℕ × ℕ)) (sock : ℕ)
    (h : ∀ e ∈ m, e.1 ≠ sock ∧ e.2 ≠ sock) : getSock m sock = none := by
  induction m with
  | nil => rfl
  | cons e rest ih =>
      obtain ⟨e1, e2⟩ := e
      obtain ⟨h1, h2⟩ := h (e1, e2) (List.mem_cons_self _ _)
      rw [getSock_cons, if_neg h2, if_neg h1]
      exact ih fun x hx => h x (List.mem_cons_of_mem _ hx)

/-- Resolution skips over a leading block of pairs not holding the
socket. -/
lemma getSock_append_fresh (m1 m2 : List (ℕ × ℕ)) (sock : ℕ)
    (h : ∀ e ∈ m1, e.1 ≠ sock ∧ e.2 ≠ sock) :
    getSock (m1 ++ m2) sock = getSock m2 sock := by
  induction m1 with
  | nil => rfl
  | cons e rest ih =>
      obtain ⟨e1, e2⟩ := e
      obtain ⟨h1, h2⟩ := h (e1, e2) (List.mem_cons_self _ _)
      rw [List.cons_append, getSock_cons, if_neg h2, if_neg h1]
      exact ih fun x hx => h x (List.mem_cons_of_mem _ hx)

/-- In a dict whose other entries do not hold the two sockets, each side
of a recorded pair resolves to the other side. -/
lemma getSock_of_mem_fresh (m : List (ℕ × ℕ)) (c u : ℕ) (hcu : u ≠ c)
    (hmem : (c, u) ∈ m)
    (hfresh : ∀ e ∈ m, e ≠ (c, u) → e.1 ≠ c ∧ e.2 ≠ c ∧ e.1 ≠ u ∧ e.2 ≠ u) :
    getSock m c = some u ∧ getSock m u = some c := by
  induction m with
  | nil => simp at hmem
  | cons e rest ih =>
      by_cases he : e = (c, u)
      · rw [he, getSock_cons, getSock_cons]
        constructor
        · rw [if_neg hcu, if_pos rfl]
        · rw [if_pos rfl]
      · obtain ⟨f1, f2, f3, f4⟩ := hfresh e (List.mem_cons_self _ _) he
        obtain ⟨e1, e2⟩ := e
        have hmem2 : (c, u) ∈ rest := by
          rcases List.mem_cons.mp hmem with h | h
          · exact absurd h.symm he
          · exact h
        rw [getSock_cons, getSock_cons, if_neg f2, if_neg f1, if_neg f4, if_neg f3]
        exact ih hmem2 fun x hx hxne => hfresh x (List.mem_cons_of_mem _ hx) hxne

/-- Filtering a pair dict on a key predicate is membership plus the key
condition. -/
lemma mem_filter_keyne (m : List (ℕ × ℕ)) (k : ℕ) (e : ℕ × ℕ) :
    e ∈ m.filter (fun x => x.1 != k) ↔ e ∈ m ∧ e.1 ≠ k := by
  simp [List.mem_filter]

/-- The successful path of SocketMapper.delete, spelled out. -/
lemma MapperState.delete_eq (st : MapperState) (sock paired : ℕ)
    (hget : getSock st.map sock = some paired)
    (hs : sock ∈ st.registered) (hp : paired ∈ st.registered.erase sock) :
    st.delete sock = some ⟨(if st.map.any fun e => e.1 == sock then
        st.map.filter fun e => e.1 != sock
      else st.map.filter fun e => e.1 != paired),
      (st.registered.erase sock).erase paired,
      (st.closed ++ [sock]) ++ [paired], st.updates⟩ := by
  simp only [MapperState.delete, hget, unregList, if_pos hs, if_pos hp]

/-
The claims, settled against the embedding above.
-/

/-- Claim C1.  The claim states that on a zero length read the registry
entry of the pair is deleted AND the policy receives exactly one update
notification for the assigned server.  The source contradicts the
second half: neither the read handler nor SocketMapper.delete ever
calls policy.update (the SocketMapper constructor stores the policy
object but no method uses it), so zero notifications are issued.  At
the concrete established pair (client 0, upstream 1), a zero length
read on socket 0 removes the pair from the registry while the policy
notification log stays empty, length 0 instead of the claimed 1. -/
theorem claim1_zero_read_no_policy_notification :
    (readHandler ⟨[(0, 1)], [0, 1], [], []⟩ 0 0).map
        (fun st => (st.map, st.updates.length)) = some ([], 0) := by
  decide

/-- Claim C2.  The claim states that after a sequence of select then
update pairs the stored running average equals the arithmetic mean of
the elapsed times.  The source contradicts this for every second and
later pair: update reads the head of the window as the start time, but
both select_server and update leave a padding zero at the front, so the
second update measures its delta from time zero instead of from the
recorded start.  Concretely, for one server with select at time 1,
update at time 2, select at time 3, update at time 4 (both true deltas
equal 1, mean 1), the stored average ends at 5/2, not 1. -/
theorem claim2_running_average_not_mean_of_deltas :
    (runLRT [LRTOp.sel 1, LRTOp.upd 0 2, LRTOp.sel 3, LRTOp.upd 0 4]
        (LeastResponseTime.init [0])).map
        (fun r => r.1.table.map fun e => e.2.avg) = some [5 / 2] ∧
    ((2 : ℚ) - 1 + ((4 : ℚ) - 3)) / 2 = 1 ∧ ((5 : ℚ) / 2) ≠ 1 := by
  refine ⟨?_, by norm_num, by norm_num⟩
  norm_num [runLRT, LeastResponseTime.selectServer, LeastResponseTime.update,
    LeastResponseTime.init, lrtChoose, pyMin, pyStep, lookupA, setA]

/-- Claim C3, counterexample.  The claim states the stored counter is
never negative: a decrement below zero is clamped or reported rather
than stored.  The source stores the decremented value unconditionally:
one update call on a fresh policy stores -1. -/
theorem claim3_counterexample_negative_counter_stored :
    runLC [LCOp.upd 7] (LeastConnections.init [7]) =
      some (⟨[7], [(7, -1)]⟩, []) ∧
    (⟨[7], [(7, -1)]⟩ : LeastConnections).conn 7 < 0 := by
  decide

/-- Claim C3, amended.  For every call sequence, the stored counter of
every server equals (selections of that server) minus (updates for that
server) as a signed integer; when updates exceed selections the value
is stored negative, with no clamping. -/
theorem claim3_counter_equals_selections_minus_updates (servers : List ℕ)
    (ops : List LCOp) (p2 : LeastConnections) (chosen : List ℕ)
    (h : runLC ops (LeastConnections.init servers) = some (p2, chosen)) (s : ℕ) :
    p2.conn s = (chosen.count s : ℤ) - (countUpd ops s : ℤ) := by
  have hwf : ∀ t ∈ (LeastConnections.init servers).servers,
      t ∈ (LeastConnections.init servers).connections.map Prod.fst := by
    intro t ht
    rw [LeastConnections.init_conn_keys]
    exact ht
  have hrun := runLC_conn ops _ p2 chosen hwf h s
  rw [hrun, LeastConnections.conn_init]
  ring

/-- Claim C3, witness of the amended claim at a concrete run: servers
[1, 2], two selections then one update for server 1; the counter of
server 1 ends at 1 - 1 = 0. -/
theorem claim3_witness :
    runLC [LCOp.sel, LCOp.sel, LCOp.upd 1] (LeastConnections.init [1, 2]) =
      some (⟨[1, 2], [(1, 0), (2, 1)]⟩, [1, 2]) ∧
    (⟨[1, 2], [(1, 0), (2, 1)]⟩ : LeastConnections).conn 1 =
      (([1, 2] : List ℕ).count 1 : ℤ) -
        (countUpd [LCOp.sel, LCOp.sel, LCOp.upd 1] 1 : ℤ) :=
  ⟨by decide,
    claim3_counter_equals_selections_minus_updates [1, 2]
      [LCOp.sel, LCOp.sel, LCOp.upd 1] _ _ (by decide) 1⟩

/-- Claim C4, counterexample.  The claim states that when the connect to
the upstream fails, the client socket is closed and is not left
subscribed.  The source subscribes the client before connecting and has
no rollback path: on the failing add from an empty state, the error
state still holds socket 0 subscribed, nothing has been closed, and no
pair is recorded. -/
theorem claim4_counterexample_client_not_closed :
    MapperState.add ⟨[], [], [], []⟩ 0 7 false = Except.error ⟨[], [0], [], []⟩ ∧
    0 ∈ (⟨[], [0], [], []⟩ : MapperState).registered ∧
    (⟨[], [0], [], []⟩ : MapperState).closed = [] ∧
    (⟨[], [0], [], []⟩ : MapperState).map = [] :=
  ⟨rfl, by decide, rfl, rfl⟩

/-- Claim C4, amended.  When the connect to the upstream fails, no pair
is recorded in the registry, but the client socket has already been
subscribed for readiness and is left subscribed and open; the exception
propagates carrying exactly that state. -/
theorem claim4_connect_failure_leaves_client_subscribed (st : MapperState) (c u : ℕ) :
    st.add c u false =
      Except.error ⟨st.map, st.registered ++ [c], st.closed, st.updates⟩ := rfl

/-- Claim C5.  Registry round trip: after a successful add of a fresh
client and upstream pair, resolving the client returns the upstream and
resolving the upstream returns the client; after delete invoked on
either side of the pair, both resolves report not found. -/
theorem claim5_registry_round_trip (st : MapperState) (c u : ℕ) (hcu : c ≠ u)
    (hfresh : ∀ e ∈ st.map, e.1 ≠ c ∧ e.2 ≠ c ∧ e.1 ≠ u ∧ e.2 ≠ u) :
    ∃ st1, st.add c u true = Except.ok st1 ∧
      getSock st1.map c = some u ∧ getSock st1.map u = some c ∧
      (∃ st2, st1.delete c = some st2 ∧
        getSock st2.map c = none ∧ getSock st2.map u = none) ∧
      (∃ st3, st1.delete u = some st3 ∧
        getSock st3.map c = none ∧ getSock st3.map u = none) := by
  have hne : u ≠ c := fun h => hcu h.symm
  have hfc : ∀ e ∈ st.map, e.1 ≠ c ∧ e.2 ≠ c :=
    fun e he => ⟨(hfresh e he).1, (hfresh e he).2.1⟩
  have hfu : ∀ e ∈ st.map, e.1 ≠ u ∧ e.2 ≠ u :=
    fun e he => ⟨(hfresh e he).2.2.1, (hfresh e he).2.2.2⟩
  have hgc : getSock (st.map ++ [(c, u)]) c = some u := by
    rw [getSock_append_fresh st.map _ c hfc, getSock_cons, if_neg hne, if_pos rfl]
  have hgu : getSock (st.map ++ [(c, u)]) u = some c := by
    rw [getSock_append_fresh st.map _ u hfu, getSock_cons, if_pos rfl]
  have hfilter : ∀ e ∈ (st.map ++ [(c, u)]).filter (fun x => x.1 != c),
      (e.1 ≠ c ∧ e.2 ≠ c) ∧ (e.1 ≠ u ∧ e.2 ≠ u) := by
    intro e he
    obtain ⟨hmem, hkey⟩ := (mem_filter_keyne _ c e).mp he
    rcases List.mem_append.mp hmem with h | h
    · exact ⟨hfc e h, hfu e h⟩
    · have hecu : e = (c, u) := by simpa using h
      rw [hecu] at hkey
      exact absurd rfl hkey
  have hnone_c : getSock ((st.map ++ [(c, u)]).filter fun x => x.1 != c) c = none :=
    getSock_none_of_fresh _ c fun e he => (hfilter e he).1
  have hnone_u : getSock ((st.map ++ [(c, u)]).filter fun x => x.1 != c) u = none :=
    getSock_none_of_fresh _ u fun e he => (hfilter e he).2
  have hany_c : ((st.map ++ [(c, u)]).any fun e => e.1 == c) = true :=
    List.any_eq_true.mpr ⟨(c, u), List.mem_append_right _ (List.mem_cons_self _ _), by simp⟩
  have hany_u : ((st.map ++ [(c, u)]).any fun e => e.1 == u) = false := by
    rw [List.any_eq_false]
    intro e he
    rcases List.mem_append.mp he with h | h
    · simp [(hfu e h).1]
    · have hecu : e = (c, u) := by simpa using h
      rw [hecu]
      simp [hcu]
  have hregc : c ∈ (st.registered ++ [c]) ++ [u] := by simp
  have hregu : u ∈ (st.registered ++ [c]) ++ [u] := by simp
  have herase_u : u ∈ ((st.registered ++ [c]) ++ [u]).erase c :=
    (List.mem_erase_of_ne hne).mpr hregu
  have herase_c : c ∈ ((st.registered ++ [c]) ++ [u]).erase u :=
    (List.mem_erase_of_ne hcu).mpr hregc
  have hdelc := MapperState.delete_eq
    ⟨st.map ++ [(c, u)], (st.registered ++ [c]) ++ [u], st.closed, st.updates⟩
    c u hgc hregc herase_u
  rw [if_pos hany_c] at hdelc
  have hdelu := MapperState.delete_eq
    ⟨st.map ++ [(c, u)], (st.registered ++ [c]) ++ [u], st.closed, st.updates⟩
    u c hgu hregu herase_c
  have hcond : ¬ (((st.map ++ [(c, u)]).any fun e => e.1 == u) = true) := by
    rw [hany_u]
    exact Bool.false_ne_true
  rw [if_neg hcond] at hdelu
  exact ⟨⟨st.map ++ [(c, u)], (st.registered ++ [c]) ++ [u], st.closed, st.updates⟩,
    rfl, hgc, hgu, ⟨_, hdelc, hnone_c, hnone_u⟩, ⟨_, hdelu, hnone_c, hnone_u⟩⟩

/-- Claim C5, witness: empty starting registry, client socket 0 and
upstream socket 1. -/
theorem claim5_witness :
    (0 : ℕ) ≠ 1 ∧
    (∀ e ∈ (⟨[], [], [], []⟩ : MapperState).map,
      e.1 ≠ 0 ∧ e.2 ≠ 0 ∧ e.1 ≠ 1 ∧ e.2 ≠ 1) ∧
    (∃ st1, (⟨[], [], [], []⟩ : MapperState).add 0 1 true = Except.ok st1 ∧
      getSock st1.map 0 = some 1 ∧ getSock st1.map 1 = some 0 ∧
      (∃ st2, st1.delete 0 = some st2 ∧
        getSock st2.map 0 = none ∧ getSock st2.map 1 = none) ∧
      (∃ st3, st1.delete 1 = some st3 ∧
        getSock st3.map 0 = none ∧ getSock st3.map 1 = none)) :=
  ⟨by decide, by decide, claim5_registry_round_trip ⟨[], [], [], []⟩ 0 1
    (by decide) (by decide)⟩

/-- Claim C6.  For a registered pair, one delete call, whether invoked
with the client socket or with the upstream socket, closes each of the
two handles exactly once, removes both from the readiness
subscriptions, and removes exactly the one pairing entry. -/
theorem claim6_delete_once_per_pair (st : MapperState) (c u x : ℕ)
    (hmem : (c, u) ∈ st.map) (hcu : c ≠ u)
    (hfresh : ∀ e ∈ st.map, e ≠ (c, u) → e.1 ≠ c ∧ e.2 ≠ c ∧ e.1 ≠ u ∧ e.2 ≠ u)
    (hrc : st.registered.count c = 1) (hru : st.registered.count u = 1)
    (hcc : st.closed.count c = 0) (hcuu : st.closed.count u = 0)
    (hx : x = c ∨ x = u) :
    ∃ st2, st.delete x = some st2 ∧
      st2.closed.count c = 1 ∧ st2.closed.count u = 1 ∧
      c ∉ st2.registered ∧ u ∉ st2.registered ∧
      (∀ e, e ∈ st2.map ↔ e ∈ st.map ∧ e ≠ (c, u)) := by
  have hne : u ≠ c := fun h => hcu h.symm
  obtain ⟨hgc, hgu⟩ := getSock_of_mem_fresh st.map c u hne hmem hfresh
  have hmc : c ∈ st.registered := by
    by_contra hno
    simp [List.count_eq_zero.mpr hno] at hrc
  have hmu : u ∈ st.registered := by
    by_contra hno
    simp [List.count_eq_zero.mpr hno] at hru
  have hmapiff : ∀ e, e ∈ st.map.filter (fun z => z.1 != c) ↔
      e ∈ st.map ∧ e ≠ (c, u) := by
    intro e
    rw [mem_filter_keyne]
    constructor
    · rintro ⟨h1, h2⟩
      refine ⟨h1, ?_⟩
      intro hecu
      rw [hecu] at h2
      exact h2 rfl
    · rintro ⟨h1, h2⟩
      exact ⟨h1, (hfresh e h1 h2).1⟩
  rcases hx with hx | hx
  · subst hx
    have hreg2 : u ∈ st.registered.erase x := (List.mem_erase_of_ne hne).mpr hmu
    have hany : (st.map.any fun e => e.1 == x) = true :=
      List.any_eq_true.mpr ⟨(x, u), hmem, by simp⟩
    have hdel := MapperState.delete_eq st x u hgc hmc hreg2
    rw [if_pos hany] at hdel
    refine ⟨_, hdel, ?_, ?_, ?_, ?_, hmapiff⟩
    · have e2 : List.count x [u] = 0 := by simp [hcu]
      simp [List.count_append, hcc, e2]
    · have e1 : List.count u [x] = 0 := by simp [hne]
      simp [List.count_append, hcuu, e1, List.count_cons, hne]
    · have h1 : (st.registered.erase x).count x = 0 := by
        rw [List.count_erase_self, hrc]
      have h2 : ((st.registered.erase x).erase u).count x = 0 := by
        rw [List.count_erase_of_ne hcu, h1]
      exact List.count_eq_zero.mp h2
    · have h1 : (st.registered.erase x).count u = 1 := by
        rw [List.count_erase_of_ne hne, hru]
      have h2 : ((st.registered.erase x).erase u).count u = 0 := by
        rw [List.count_erase_self, h1]
      exact List.count_eq_zero.mp h2
  · subst hx
    have hreg2 : c ∈ st.registered.erase x := (List.mem_erase_of_ne hcu).mpr hmc
    have hanyu : (st.map.any fun e => e.1 == x) = false := by
      rw [List.any_eq_false]
      intro e he
      by_cases hecu : e = (c, x)
      · rw [hecu]
        simp [hcu]
      · simp [(hfresh e he hecu).2.2.1]
    have hdel := MapperState.delete_eq st x c hgu hmu hreg2
    have hcond : ¬ ((st.map.any fun e => e.1 == x) = true) := by
      rw [hanyu]
      exact Bool.false_ne_true
    rw [if_neg hcond] at hdel
    refine ⟨_, hdel, ?_, ?_, ?_, ?_, hmapiff⟩
    · have e2 : List.count c [x] = 0 := by simp [hcu]
      simp [List.count_append, hcc, e2, List.count_cons, hcu]
    · have e1 : List.count x [c] = 0 := by simp [hne]
      simp [List.count_append, hcuu, e1]
    · have h1 : (st.registered.erase x).count c = 1 := by
        rw [List.count_erase_of_ne hcu, hrc]
      have h2 : ((st.registered.erase x).erase c).count c = 0 := by
        rw [List.count_erase_self, h1]
      exact List.count_eq_zero.mp h2
    · have h1 : (st.registered.erase x).count x = 0 := by
        rw [List.count_erase_self, hru]
      have h2 : ((st.registered.erase x).erase c).count x = 0 := by
        rw [List.count_erase_of_ne hne, h1]
      exact List.count_eq_zero.mp h2

lemma LeastResponseTime.init_table_keys (servers : List ℕ) :
    (LeastResponseTime.init servers).table.map Prod.fst = servers := by
  show (servers.map fun s => (s, (⟨[0], 0, 0⟩ : STimes))).map Prod.fst = servers
  induction servers with
  | nil => rfl
  | cons a rest ih => simp only [List.map_cons, ih]

/-- Claim C7.  For a nonempty server list and a cursor inside the list,
select_server returns the server at the cursor and advances the cursor
by one modulo the server count; a full cycle of length many selections
returns the rotation of the list at the cursor, a permutation of the
server list, so every server is returned exactly once before any
repeats, and the cursor returns to its starting value. -/
theorem claim7_round_robin_cycle (p : RoundRobin) (hne : p.servers ≠ [])
    (hi : p.index < p.servers.length) :
    p.selectServer = some (p.servers.getD p.index 0,
      ⟨p.servers, (p.index + 1) % p.servers.length⟩) ∧
    ∃ out, RoundRobin.runSelections p.servers.length p =
        some (out, ⟨p.servers, p.index⟩) ∧
      out = p.servers.drop p.index ++ p.servers.take p.index ∧
      out.Perm p.servers := by
  have hl : 0 < p.servers.length := List.length_pos.mpr hne
  obtain ⟨l, i⟩ := p
  constructor
  · exact RoundRobin.selectServer_eq l i hi
  · have hrun := RoundRobin.runSelections_spec l hl l.length i hi
    have hfin : (i + l.length) % l.length = i := by
      rw [Nat.add_mod_right]
      exact Nat.mod_eq_of_lt hi
    rw [hfin, range_map_getD_eq_drop_append_take l i hi] at hrun
    refine ⟨_, hrun, rfl, ?_⟩
    refine List.perm_append_comm.trans ?_
    rw [List.take_append_drop]

/-- Claim C7, witness: servers [3, 4, 5] and starting cursor 1; the
cycle returns [4, 5, 3]. -/
theorem claim7_witness :
    ((⟨[3, 4, 5], 1⟩ : RoundRobin).servers ≠ [] ∧
      (⟨[3, 4, 5], 1⟩ : RoundRobin).index < (⟨[3, 4, 5], 1⟩ : RoundRobin).servers.length) ∧
    ((⟨[3, 4, 5], 1⟩ : RoundRobin).selectServer =
        some ((⟨[3, 4, 5], 1⟩ : RoundRobin).servers.getD (⟨[3, 4, 5], 1⟩ : RoundRobin).index 0,
          ⟨(⟨[3, 4, 5], 1⟩ : RoundRobin).servers,
            ((⟨[3, 4, 5], 1⟩ : RoundRobin).index + 1) %
              (⟨[3, 4, 5], 1⟩ : RoundRobin).servers.length⟩) ∧
      ∃ out, RoundRobin.runSelections (⟨[3, 4, 5], 1⟩ : RoundRobin).servers.length
          ⟨[3, 4, 5], 1⟩ =
          some (out, ⟨(⟨[3, 4, 5], 1⟩ : RoundRobin).servers,
            (⟨[3, 4, 5], 1⟩ : RoundRobin).index⟩) ∧
        out = (⟨[3, 4, 5], 1⟩ : RoundRobin).servers.drop (⟨[3, 4, 5], 1⟩ : RoundRobin).index ++
          (⟨[3, 4, 5], 1⟩ : RoundRobin).servers.take (⟨[3, 4, 5], 1⟩ : RoundRobin).index ∧
        out.Perm (⟨[3, 4, 5], 1⟩ : RoundRobin).servers) :=
  ⟨⟨by decide, by decide⟩,
    claim7_round_robin_cycle ⟨[3, 4, 5], 1⟩ (by decide) (by decide)⟩

/-- Claim C8.  For a nonempty server list whose servers all hold a
counter key, select_server returns the first server in configured list
order whose counter is minimal (strictly smaller than every counter
before it, at most every counter after it and over the whole list),
increments exactly that counter within the same call, and leaves every
other counter and the server list unchanged. -/
theorem claim8_least_connections_select (p : LeastConnections) (hne : p.servers ≠ [])
    (hwf : ∀ t ∈ p.servers, t ∈ p.connections.map Prod.fst) :
    ∃ s p1, p.selectServer = some (s, p1) ∧
      (∃ l1 l2, p.servers = l1 ++ s :: l2 ∧ (∀ t ∈ l1, p.conn s < p.conn t) ∧
        (∀ t ∈ l2, p.conn s ≤ p.conn t)) ∧
      (∀ t ∈ p.servers, p.conn s ≤ p.conn t) ∧
      p1.conn s = p.conn s + 1 ∧ (∀ t, t ≠ s → p1.conn t = p.conn t) ∧
      p1.servers = p.servers := by
  obtain ⟨s, hmin⟩ := pyMin_isSome p.conn p.servers hne
  have hsel : p.selectServer = some (s, ⟨p.servers, setA p.connections s (p.conn s + 1)⟩) := by
    unfold LeastConnections.selectServer
    rw [hmin]
  obtain ⟨hmem, hsrv, hbump, hother, hkeys⟩ :=
    LeastConnections.selectServer_conn p s _ hwf hsel
  obtain ⟨l1, l2, hsplit, hbefore, hafter⟩ := pyMin_split p.conn p.servers s hmin
  exact ⟨s, _, hsel, ⟨l1, l2, hsplit, hbefore, hafter⟩,
    pyMin_le p.conn p.servers s hmin, hbump, hother, hsrv⟩

/-- Claim C8, witness: servers [1, 2] with both counters at zero. -/
theorem claim8_witness :
    ((⟨[1, 2], [(1, 0), (2, 0)]⟩ : LeastConnections).servers ≠ [] ∧
      (∀ t ∈ (⟨[1, 2], [(1, 0), (2, 0)]⟩ : LeastConnections).servers,
        t ∈ (⟨[1, 2], [(1, 0), (2, 0)]⟩ : LeastConnections).connections.map Prod.fst)) ∧
    (∃ s p1, (⟨[1, 2], [(1, 0), (2, 0)]⟩ : LeastConnections).selectServer = some (s, p1) ∧
      (∃ l1 l2, (⟨[1, 2], [(1, 0), (2, 0)]⟩ : LeastConnections).servers = l1 ++ s :: l2 ∧
        (∀ t ∈ l1, (⟨[1, 2], [(1, 0), (2, 0)]⟩ : LeastConnections).conn s <
          (⟨[1, 2], [(1, 0), (2, 0)]⟩ : LeastConnections).conn t) ∧
        (∀ t ∈ l2, (⟨[1, 2], [(1, 0), (2, 0)]⟩ : LeastConnections).conn s ≤
          (⟨[1, 2], [(1, 0), (2, 0)]⟩ : LeastConnections).conn t)) ∧
      (∀ t ∈ (⟨[1, 2], [(1, 0), (2, 0)]⟩ : LeastConnections).servers,
        (⟨[1, 2], [(1, 0), (2, 0)]⟩ : LeastConnections).conn s ≤
          (⟨[1, 2], [(1, 0), (2, 0)]⟩ : LeastConnections).conn t) ∧
      p1.conn s = (⟨[1, 2], [(1, 0), (2, 0)]⟩ : LeastConnections).conn s + 1 ∧
      (∀ t, t ≠ s → p1.conn t = (⟨[1, 2], [(1, 0), (2, 0)]⟩ : LeastConnections).conn t) ∧
      p1.servers = (⟨[1, 2], [(1, 0), (2, 0)]⟩ : LeastConnections).servers) :=
  ⟨⟨by decide, by decide⟩,
    claim8_least_connections_select ⟨[1, 2], [(1, 0), (2, 0)]⟩ (by decide) (by decide)⟩

/-- Claim C9.  For a nonempty table whose windows are all nonempty (as
in every reachable state), select_server returns a server whose stored
running average is minimal over the table, whose window is shortest
among the servers tied at that minimal average, records the current
time in the window of that server (overwriting the trailing slot and
appending a fresh zero slot), and leaves every other entry unchanged. -/
theorem claim9_least_response_time_select (p : LeastResponseTime) (now : ℚ)
    (hne : p.table ≠ []) (hw : ∀ e ∈ p.table, e.2.timestamps ≠ []) :
    ∃ s info p1, p.selectServer now = some (s, p1) ∧
      (s, info) ∈ p.table ∧
      (∀ e ∈ p.table, info.avg ≤ e.2.avg) ∧
      (∀ e ∈ p.table, e.2.avg = info.avg →
        info.timestamps.length ≤ e.2.timestamps.length) ∧
      p1.table = setA p.table s
        ⟨info.timestamps.dropLast ++ [now, 0], info.avg, info.numRequests⟩ ∧
      (∀ t, t ≠ s → lookupA p1.table t = lookupA p.table t) := by
  obtain ⟨first, hmin⟩ := pyMin_isSome (fun e => e.2.avg) p.table hne
  have hcmem := (lrtChoose_mem_avg p.table first (pyMin_mem _ _ _ hmin)).1
  have hwne := hw _ hcmem
  obtain ⟨a, w, hts⟩ : ∃ a w, (lrtChoose p.table first).2.timestamps = a :: w := by
    cases hcase : (lrtChoose p.table first).2.timestamps with
    | nil => exact absurd hcase hwne
    | cons a w => exact ⟨a, w, rfl⟩
  have hsel : p.selectServer now = some ((lrtChoose p.table first).1,
      ⟨setA p.table (lrtChoose p.table first).1
        ⟨(lrtChoose p.table first).2.timestamps.dropLast ++ [now, 0],
          (lrtChoose p.table first).2.avg,
          (lrtChoose p.table first).2.numRequests⟩⟩) := by
    unfold LeastResponseTime.selectServer
    rw [hmin]
    simp only [hts]
  obtain ⟨info, hmemI, hneI, hminI, htieI, htabI⟩ :=
    LeastResponseTime.selectServer_spec p now _ _ hsel
  refine ⟨_, info, _, hsel, hmemI, hminI, htieI, htabI, ?_⟩
  intro t ht
  rw [htabI]
  exact lookupA_setA_ne p.table _ t _ ht

/-- Claim C9, witness: two cold servers 0 and 1, selection at time 2. -/
theorem claim9_witness :
    ((⟨[(0, ⟨[0], 0, 0⟩), (1, ⟨[0], 0, 0⟩)]⟩ : LeastResponseTime).table ≠ [] ∧
      (∀ e ∈ (⟨[(0, ⟨[0], 0, 0⟩), (1, ⟨[0], 0, 0⟩)]⟩ : LeastResponseTime).table,
        e.2.timestamps ≠ [])) ∧
    (∃ s info p1,
      (⟨[(0, ⟨[0], 0, 0⟩), (1, ⟨[0], 0, 0⟩)]⟩ : LeastResponseTime).selectServer 2 =
        some (s, p1) ∧
      (s, info) ∈ (⟨[(0, ⟨[0], 0, 0⟩), (1, ⟨[0], 0, 0⟩)]⟩ : LeastResponseTime).table ∧
      (∀ e ∈ (⟨[(0, ⟨[0], 0, 0⟩), (1, ⟨[0], 0, 0⟩)]⟩ : LeastResponseTime).table,
        info.avg ≤ e.2.avg) ∧
      (∀ e ∈ (⟨[(0, ⟨[0], 0, 0⟩), (1, ⟨[0], 0, 0⟩)]⟩ : LeastResponseTime).table,
        e.2.avg = info.avg → info.timestamps.length ≤ e.2.timestamps.length) ∧
      p1.table = setA (⟨[(0, ⟨[0], 0, 0⟩), (1, ⟨[0], 0, 0⟩)]⟩ : LeastResponseTime).table s
        ⟨info.timestamps.dropLast ++ [(2 : ℚ), 0], info.avg, info.numRequests⟩ ∧
      (∀ t, t ≠ s → lookupA p1.table t =
        lookupA (⟨[(0, ⟨[0], 0, 0⟩), (1, ⟨[0], 0, 0⟩)]⟩ : LeastResponseTime).table t)) :=
  ⟨⟨by decide, by decide⟩,
    claim9_least_response_time_select ⟨[(0, ⟨[0], 0, 0⟩), (1, ⟨[0], 0, 0⟩)]⟩ 2
      (by decide) (by decide)⟩

/-- Claim C10.  Over any call sequence from a fresh policy with
distinct servers: every selection of a server lengthens its timestamp
window by exactly one (the trailing slot is overwritten and a zero slot
appended) and every update keeps the length (the head is dropped and a
zero appended), so in the final state the window length of every server
equals one plus the number of times it was selected; in particular the
window never shrinks, no matter how many updates complete. -/
theorem claim10_window_grows_with_selections (servers : List ℕ) (ops : List LRTOp)
    (p2 : LeastResponseTime) (chosen : List ℕ) (hnd : servers.Nodup)
    (h : runLRT ops (LeastResponseTime.init servers) = some (p2, chosen)) :
    ∀ s info, (s, info) ∈ p2.table → info.timestamps.length = 1 + chosen.count s := by
  have hwf := LRTWF_init servers hnd
  obtain ⟨hwf2, hkeys2, hlen2⟩ := runLRT_window ops _ p2 chosen hwf h
  intro s info hmem
  have hskey : s ∈ p2.table.map Prod.fst := List.mem_map.mpr ⟨(s, info), hmem, rfl⟩
  rw [hkeys2, LeastResponseTime.init_table_keys] at hskey
  have hmeminit : (s, (⟨[0], 0, 0⟩ : STimes)) ∈ (LeastResponseTime.init servers).table :=
    List.mem_map.mpr ⟨s, hskey, rfl⟩
  obtain ⟨info2, hmem2, hlen⟩ := hlen2 s _ hmeminit
  have heq : info = info2 :=
    mem_unique_of_nodup_keys p2.table s info info2 hwf2.1 hmem hmem2
  rw [heq, hlen]
  rfl

/-- Claim C10, witness: one server selected twice, no update; the
window ends at length three. -/
theorem claim10_witness :
    ([0] : List ℕ).Nodup ∧
    runLRT [LRTOp.sel 1, LRTOp.sel 2] (LeastResponseTime.init [0]) =
      some (⟨[(0, ⟨[1, 2, 0], 0, 0⟩)]⟩, [0, 0]) ∧
    (∀ s info, (s, info) ∈ (⟨[(0, ⟨[1, 2, 0], 0, 0⟩)]⟩ : LeastResponseTime).table →
      info.timestamps.length = 1 + ([0, 0] : List ℕ).count s) :=
  ⟨by decide, by decide,
    claim10_window_grows_with_selections [0] [LRTOp.sel 1, LRTOp.sel 2] _ _
      (by decide) (by decide)⟩

/-- Claim C6, witness: the pair (client 0, upstream 1), both subscribed
and open, delete invoked with the client socket. -/
theorem claim6_witness :
    ((0, 1) ∈ (⟨[(0, 1)], [0, 1], [], []⟩ : MapperState).map) ∧
    (0 : ℕ) ≠ 1 ∧
    (∃ st2, (⟨[(0, 1)], [0, 1], [], []⟩ : MapperState).delete 0 = some st2 ∧
      st2.closed.count 0 = 1 ∧ st2.closed.count 1 = 1 ∧
      0 ∉ st2.registered ∧ 1 ∉ st2.registered ∧
      (∀ e, e ∈ st2.map ↔
        e ∈ (⟨[(0, 1)], [0, 1], [], []⟩ : MapperState).map ∧ e ≠ (0, 1))) :=
  ⟨by decide, by decide,
    claim6_delete_once_per_pair ⟨[(0, 1)], [0, 1], [], []⟩ 0 1 0
      (by decide) (by decide) (by decide) (by decide) (by decide)
      (by decide) (by decide) (Or.inl rfl)⟩

end LB

